import Mathlib

/-!
Verification of the accounting and pricing core of the Aexon platform.

The development shallowly embeds the JavaScript source into Lean:

* `backend/utils/ledger.js` — append-only balance ledger
  (`getBalance`, `getAllBalances`, `postLedgerEntry`);
* `backend/utils/walletSummaryCache.js` — TTL read cache
  (`WalletSummaryCache`);
* `backend/controllers/walletController.js` — ledger-mutating admin
  operations (`adminSetBalance`, `adjustBalance`, `approveWallet`);
* `backend/jobs/priceUpdater.js` — scheduled price engine
  (`updateCoinOnce`, per-asset body of `updatePricesOnce`);
* the custom-coin price simulator (`simulateCoinOnce`, per-asset body of
  `runCoinSimulator`).

JavaScript numbers are modelled as exact rationals (`ℚ`) together with an
explicit tag type `JsVal` for the non-finite values (`NaN`, `±Infinity`)
and non-number runtime values where the source branches on them.
`Number.prototype.toFixed(k)` rounds to `k` decimal places with ties going
to the larger value, which over `ℚ` is `⌊q·10^k + 1/2⌋ / 10^k`.
MongoDB `createdAt` timestamps are naturals (milliseconds).
-/

/-- A JavaScript runtime value as seen by the numeric checks in the source.
`num q` is a finite number, `nan` is `NaN`, `posInfty`/`negInfty` are the
infinities, and `nonNumber` stands for any value with `typeof v !== "number"`
(after `Number(·)` conversion a `nonNumber` of interest here is `NaN`). -/
inductive JsVal where
  | num (q : ℚ)
  | nan
  | posInfty
  | negInfty
  | nonNumber
deriving DecidableEq

/-- `typeof v === "number" && Number.isFinite(v)`. -/
def JsVal.isFiniteNum : JsVal → Bool
  | .num _ => true
  | _ => false

/-- JavaScript truthiness of a numeric value (`0`, `-0` and `NaN` are falsy;
every other number, including the infinities, is truthy; non-numbers of the
kinds reaching the modelled code paths are truthy objects). -/
def JsVal.truthy : JsVal → Bool
  | .num q => decide (q ≠ 0)
  | .nan => false
  | .posInfty => true
  | .negInfty => true
  | .nonNumber => true

/-- JavaScript `a || b` on finite numbers: `a` is taken unless it is `0`. -/
def jsOr (a b : ℚ) : ℚ := if a = 0 then b else a

/-- JavaScript `s || d` on strings: `s` is taken unless it is empty. -/
def jsOrStr (s d : String) : String := if s = "" then d else s

/-- `x < ttl` in JavaScript where `ttl` may be a non-finite number:
comparisons with `NaN` are false, `x < Infinity` is true. -/
def jsLtNum (x : ℚ) : JsVal → Bool
  | .num q => decide (x < q)
  | .nan => false
  | .posInfty => true
  | .negInfty => false
  | .nonNumber => false

/-- `Number(v.toFixed(8))`: round to 8 decimal places, ties to the larger
value (ECMA-262 `toFixed` picks the larger candidate integer on a tie). -/
def rnd8 (q : ℚ) : ℚ := (⌊q * 100000000 + 1/2⌋ : ℤ) / 100000000

/-- `Number(v.toFixed(6))`: round to 6 decimal places, ties to the larger
value. -/
def rnd6 (q : ℚ) : ℚ := (⌊q * 1000000 + 1/2⌋ : ℤ) / 1000000

/-- ASCII uppercasing of one character, as `String.prototype.toUpperCase`
acts on the ASCII range (coin tickers in this codebase are ASCII). -/
def upChar (ch : Char) : Char :=
  if 97 ≤ ch.toNat ∧ ch.toNat ≤ 122 then Char.ofNat (ch.toNat - 32) else ch

/-- `s.toUpperCase()` on ASCII strings: uppercase every character. -/
def upStr (s : String) : String := ⟨s.data.map upChar⟩

/-! ## Ledger Store (`backend/utils/ledger.js`)

The `LedgerEntry` mongoose model file itself is not in the snapshot, but
every field the ledger code reads or writes (`user`, `type`, `coin`,
`amount`, `balance`, `createdAt`) appears in `ledger.js`; `createdAt` is
the mongoose creation timestamp (spec §3, §6).  `seq` records insertion
order (the monotone `_id`); it is never read by the embedded operations
and only serves to talk about ties. -/

/-- One immutable ledger row. -/
structure LedgerEntry where
  seq : Nat
  user : String
  entryType : String
  coin : String
  amount : ℚ
  balance : ℚ
  createdAt : Nat

/-- The ledger collection, in insertion order. -/
structure LedgerState where
  entries : List LedgerEntry

/-- The empty ledger. -/
def emptyLedger : LedgerState := ⟨[]⟩

/-- The rows of the `findOne { user, coin }` filter, in insertion order. -/
def entriesFor (l : List LedgerEntry) (userId coin : String) : List LedgerEntry :=
  l.filter fun e => e.user == userId && e.coin == upStr coin

/-- One step of scanning for the most recent row.  Among equal `createdAt`
values MongoDB's `sort({createdAt:-1})` order is unspecified; this
executable model resolves a tie in favour of the later-inserted row.
Statements whose truth depends on tie-breaking use the relational models
instead: `getBalanceRel` below for `findOne`, `getAllBalances` for the
aggregation. -/
def pickLatest (acc : Option LedgerEntry) (e : LedgerEntry) : Option LedgerEntry :=
  match acc with
  | none => some e
  | some a => if a.createdAt ≤ e.createdAt then some e else some a

/-- `LedgerEntry.findOne({user, coin}).sort({createdAt: -1})`. -/
def latestEntry (l : List LedgerEntry) : Option LedgerEntry :=
  l.foldl pickLatest none

/-- `getBalance(userId, coin)` (ledger.js lines 13–17): the balance of the
most recent row for `(userId, coin.toUpperCase())`, `0` if there is none. -/
def getBalance (st : LedgerState) (userId coin : String) : ℚ :=
  match latestEntry (entriesFor st.entries userId coin) with
  | some last => last.balance
  | none => 0

/-- The relation between a ledger state and the balances one `getBalance`
execution may return: `findOne({user, coin}).sort({createdAt:-1})` may
surface any row of maximal `createdAt` when timestamps tie (the
executable `getBalance` above commits to the later-inserted one), and
yields `0` when no row matches. -/
def getBalanceRel (st : LedgerState) (userId coin : String) (b : ℚ) : Prop :=
  (entriesFor st.entries userId coin = [] ∧ b = 0) ∨
  ∃ e ∈ entriesFor st.entries userId coin,
    (∀ x ∈ entriesFor st.entries userId coin, x.createdAt ≤ e.createdAt) ∧ b = e.balance

/-- `postLedgerEntry(userId, type, coin, delta, opts)` (ledger.js lines
54–69).  The state component of the result is the ledger after the call:
unchanged when the call throws (both throws happen before
`LedgerEntry.create`), extended by exactly one row on success.  `now` is
the creation timestamp `create` assigns. -/
def postLedgerEntry (st : LedgerState) (userId entryType coin : String)
    (delta : JsVal) (now : Nat) : LedgerState × Except String (LedgerEntry × ℚ) :=
  let coinU := upStr coin
  match delta with
  | .num d =>
    let prevBalance := getBalance st userId coinU
    let newBalance := prevBalance + d
    if newBalance < 0 then (st, .error "Insufficient balance")
    else
      let entry : LedgerEntry :=
        { seq := st.entries.length, user := userId, entryType := entryType,
          coin := coinU, amount := d, balance := newBalance, createdAt := now }
      ({ entries := st.entries ++ [entry] }, .ok (entry, newBalance))
  | _ => (st, .error "Amount required")

/-- A sequence of `postLedgerEntry` calls executed sequentially; each list
item is a delta together with the creation timestamp its call observes.  A
thrown error propagates and aborts the sequence, as an uncaught JS
exception would. -/
def runPosts (userId entryType coin : String) :
    LedgerState → List (ℚ × Nat) → Except String LedgerState
  | st, [] => .ok st
  | st, (d, t) :: rest =>
    match postLedgerEntry st userId entryType coin (.num d) t with
    | (_, .error e) => .error e
    | (st', .ok _) => runPosts userId entryType coin st' rest

/-! ## Balance Aggregator (`getAllBalances`, ledger.js lines 23–42)

The aggregation pipeline `[$match user, $sort {createdAt:-1}, $group by
coin picking $first balance]` is modelled relationally: `$sort` may emit
any permutation of the matched rows that is weakly decreasing in
`createdAt` (MongoDB does not specify the relative order of equal keys),
and `$group … $first` keeps, per coin, the balance of the first row the
sorted stream presents. -/

/-- A 24-character hexadecimal string, the strings
`mongoose.Types.ObjectId(·)` accepts without throwing. -/
def isValidObjectId (s : String) : Bool :=
  s.length == 24 && s.data.all fun ch =>
    ch.isDigit || (97 ≤ ch.toNat && ch.toNat ≤ 102) || (65 ≤ ch.toNat && ch.toNat ≤ 70)

/-- Weakly decreasing in `createdAt`: any order `$sort {createdAt:-1}` may
produce. -/
def sortedByCreatedAtDesc (l : List LedgerEntry) : Prop :=
  l.Pairwise fun a b => b.createdAt ≤ a.createdAt

/-- One row of `$group {_id: "$coin", balance: {$first: "$balance"}}`:
record the balance unless the coin's group already opened. -/
def groupStep (acc : List (String × ℚ)) (e : LedgerEntry) : List (String × ℚ) :=
  if acc.any fun p => p.1 == e.coin then acc else acc ++ [(e.coin, e.balance)]

/-- `$group {_id: "$coin", balance: {$first: "$balance"}}` over the sorted
stream: keep the first row per coin, in stream order. -/
def groupFirstBalances (l : List LedgerEntry) : List (String × ℚ) :=
  l.foldl groupStep []

/-- `getAllBalances(userId)` (ledger.js lines 23–42), as the relation
between a ledger state and the rows one execution may return: empty for a
falsy or invalid id, otherwise `groupFirstBalances` of some admissible
sort of the user's rows. -/
def getAllBalances (st : LedgerState) (userId : String) (out : List (String × ℚ)) : Prop :=
  if userId = "" then out = []
  else if isValidObjectId userId = false then out = []
  else ∃ l, (st.entries.filter fun e => e.user == userId).Perm l ∧
    sortedByCreatedAtDesc l ∧ out = groupFirstBalances l

/-- The balance an aggregation result reports for one coin: the second
component of the first row whose key is `coin`. -/
def balanceFor (coin : String) (out : List (String × ℚ)) : Option ℚ :=
  (out.find? fun p => p.1 == coin).map Prod.snd

/-! ## Wallet Summary Cache (`backend/utils/walletSummaryCache.js`)

`α` is the type of the cached summary payloads (the cache never inspects
them).  The map is an association list keyed by user id; `Date.now()`
readings are passed in as `now`.  The TTL is a `JsVal` because `setTTL`
stores whatever truthy result `Number(ms)` produced. -/

/-- One cache slot: `{ ts, data }`. -/
structure CacheEntry (α : Type) where
  ts : Nat
  data : α

/-- The in-memory cache object. -/
structure WalletSummaryCache (α : Type) where
  map : List (String × CacheEntry α)
  ttl : JsVal

/-- The exported singleton `new WalletSummaryCache()`:
empty map, `DEFAULT_TTL_MS = 8000`. -/
def WalletSummaryCache.init (α : Type) : WalletSummaryCache α :=
  { map := [], ttl := .num 8000 }

/-- `_isFresh(entry)`: present and `(Date.now() - entry.ts) < this.ttl`. -/
def WalletSummaryCache.isFresh (c : WalletSummaryCache α) (now : Nat)
    (e : Option (CacheEntry α)) : Bool :=
  match e with
  | none => false
  | some en => jsLtNum ((now : ℚ) - (en.ts : ℚ)) c.ttl

/-- `get(userId)`: the returned payload (`null` as `none`) together with
the cache afterwards — a stale or missing entry is deleted lazily. -/
def WalletSummaryCache.get (c : WalletSummaryCache α) (userId : String)
    (now : Nat) : Option α × WalletSummaryCache α :=
  let entry := (c.map.find? fun p => p.1 == userId).map Prod.snd
  if c.isFresh now entry then ((entry.map fun en => en.data), c)
  else (none, { c with map := c.map.filter fun p => !(p.1 == userId) })

/-- `set(userId, data)`. -/
def WalletSummaryCache.set (c : WalletSummaryCache α) (userId : String)
    (now : Nat) (data : α) : WalletSummaryCache α :=
  { c with map := (c.map.filter fun p => !(p.1 == userId)) ++ [(userId, ⟨now, data⟩)] }

/-- `invalidate(userId)`: `this.map.delete(String(userId))`. -/
def WalletSummaryCache.invalidate (c : WalletSummaryCache α)
    (userId : String) : WalletSummaryCache α :=
  { c with map := c.map.filter fun p => !(p.1 == userId) }

/-- `clearAll()`. -/
def WalletSummaryCache.clearAll (c : WalletSummaryCache α) : WalletSummaryCache α :=
  { c with map := [] }

/-- `setTTL(ms)`: `this.ttl = Number(ms) || this.ttl`.  The argument is
the already-converted `Number(ms)`. -/
def WalletSummaryCache.setTTL (c : WalletSummaryCache α) (msNum : JsVal) :
    WalletSummaryCache α :=
  { c with ttl := if msNum.truthy then msNum else c.ttl }

/-! ## Wallet controller (`backend/controllers/walletController.js`)

The ledger-mutating admin operations, modelled over an application state
holding the ledger, the user documents (for the embedded-wallet sync), the
`Wallet` deposit-request documents, and the wallet-summary cache.  HTTP
plumbing, audit logging and broadcasts carry no state relevant to any
claim and are reduced to the returned status; crucially, the cache field
is part of the state so that theorems can observe exactly what these
operations do (and do not do) to it. -/

/-- One element of a user's embedded `wallets` array. -/
structure EmbWallet where
  coin : String
  balance : ℚ
  address : String

/-- A `User` document, restricted to the fields these operations touch. -/
structure UserDoc where
  id : String
  wallets : List EmbWallet

/-- A `Wallet` (deposit request) document, restricted to the fields
`approveWallet` touches. -/
structure WalletDoc where
  id : String
  user : String
  coin : String
  amount : ℚ
  status : String

/-- The mutable application state the three operations act on. -/
structure AppState (α : Type) where
  ledger : LedgerState
  users : List UserDoc
  walletDocs : List WalletDoc
  cache : WalletSummaryCache α

/-- An HTTP outcome: `res.status(code)` with `ok` for a 2xx success. -/
inductive ApiResult where
  | ok
  | err (code : Nat) (msg : String)
deriving DecidableEq

/-- Update the first list element satisfying `p` (JS `find` + mutate). -/
def updateFirst (p : β → Bool) (f : β → β) : List β → List β
  | [] => []
  | x :: xs => if p x then f x :: xs else x :: updateFirst p f xs

/-- The embedded-wallet sync both admin operations perform: overwrite the
first wallet for `coin` with the authoritative balance, or push
`{coin, balance, address: ""}` when none exists. -/
def syncWallet (u : UserDoc) (coin : String) (bal : ℚ) : UserDoc :=
  if u.wallets.any fun w => w.coin == coin then
    let ws := updateFirst (fun w => w.coin == coin) (fun w => { w with balance := bal }) u.wallets
    { u with wallets := ws }
  else
    { u with wallets := u.wallets ++ [⟨coin, bal, ""⟩] }

/-- Persist a changed user document (`user.save()`). -/
def saveUser (users : List UserDoc) (u : UserDoc) : List UserDoc :=
  updateFirst (fun x => x.id == u.id) (fun _ => u) users

/-- `adminSetBalance` (walletController.js lines 97–161): validate, read
the ledger balance, post the difference as an `adjustment` entry when it
is non-zero, then sync the embedded wallet.  `now` is the creation
timestamp of the posted row. -/
def adminSetBalance (st : AppState α) (userId coin : String) (balance : JsVal)
    (now : Nat) : AppState α × ApiResult :=
  match balance with
  | .num b =>
    if userId = "" ∨ coin = "" ∨ b < 0 then
      (st, .err 400 "Invalid balance data.")
    else
      match st.users.find? fun u => u.id == userId with
      | none => (st, .err 404 "User not found")
      | some user =>
        let uppercaseCoin := upStr coin
        let prevLedgerBalance := getBalance st.ledger userId uppercaseCoin
        let desiredBalance := b
        let delta := desiredBalance - prevLedgerBalance
        if delta = 0 then
          let user' := syncWallet user uppercaseCoin desiredBalance
          ({ st with users := saveUser st.users user' }, .ok)
        else
          match postLedgerEntry st.ledger userId "adjustment" uppercaseCoin (.num delta) now with
          | (_, .error e) =>
            if e = "Insufficient balance" then (st, .err 400 "Insufficient balance")
            else (st, .err 500 "Failed to update ledger balance")
          | (ledger', .ok (_, newBal)) =>
            let user' := syncWallet user uppercaseCoin newBal
            ({ st with ledger := ledger', users := saveUser st.users user' }, .ok)
  | _ => (st, .err 400 "Invalid balance data.")

/-- `adjustBalance` (walletController.js lines 320–381): validate, post the
delta as an `adjustment` entry, sync the embedded wallet, and append the
best-effort `Wallet` log row.  `delta` is `none` when the request body had
no `delta` field (`typeof delta === "undefined"`); `Number(delta)` of a
non-number request value is modelled as `NaN`. -/
def adjustBalance (st : AppState α) (id coin : String) (delta : Option JsVal)
    (now : Nat) : AppState α × ApiResult :=
  match delta with
  | none => (st, .err 400 "Missing params")
  | some dv =>
    if id = "" ∨ coin = "" then (st, .err 400 "Missing params")
    else
      match st.users.find? fun u => u.id == id with
      | none => (st, .err 404 "User not found")
      | some user =>
        let uppercaseCoin := upStr coin
        match dv with
        | .num d =>
          match postLedgerEntry st.ledger id "adjustment" uppercaseCoin (.num d) now with
          | (_, .error e) =>
            if e = "Insufficient balance" then (st, .err 400 "Insufficient balance")
            else (st, .err 500 "Failed to adjust ledger balance")
          | (ledger', .ok (_, newBal)) =>
            let user' := syncWallet user uppercaseCoin newBal
            let log : WalletDoc :=
              { id := "", user := id, coin := uppercaseCoin, amount := d, status := "approved" }
            let users' := saveUser st.users user'
            let docs' := st.walletDocs ++ [log]
            ({ st with ledger := ledger', users := users', walletDocs := docs' }, .ok)
        | _ => (st, .err 400 "Invalid delta")

/-- `approveWallet` (walletController.js lines 398–454): look up the
deposit request, reject double approval, post the deposit to the ledger,
mark the request approved, and sync the embedded wallet of the requesting
user when that user exists. -/
def approveWallet (st : AppState α) (id : String) (now : Nat) :
    AppState α × ApiResult :=
  match st.walletDocs.find? fun w => w.id == id with
  | none => (st, .err 404 "Wallet entry not found")
  | some w =>
    if w.status = "approved" then (st, .err 400 "Already approved")
    else
      let depositAmount := jsOr w.amount 0
      let uppercaseCoin := upStr w.coin
      match postLedgerEntry st.ledger w.user "deposit" uppercaseCoin (.num depositAmount) now with
      | (_, .error e) =>
        if e = "Insufficient balance" then (st, .err 400 "Insufficient balance")
        else (st, .err 500 "Failed to record deposit in ledger")
      | (ledger', .ok (_, newBal)) =>
        let walletDocs' := updateFirst (fun x => x.id == id)
          (fun x => { x with status := "approved" }) st.walletDocs
        let users' :=
          match st.users.find? fun u => u.id == w.user with
          | none => st.users
          | some user => saveUser st.users (syncWallet user uppercaseCoin newBal)
        ({ st with ledger := ledger', walletDocs := walletDocs', users := users' }, .ok)

/-! ## Price Engine (`backend/jobs/priceUpdater.js`)

`updatePricesOnce` reads all `Coin` documents, computes each one's next
price, and persists one bulk update.  The per-asset computation and the
per-document effect of the bulk `updateOne` (its `$set` and its `$push`
with `$each`/`$slice`) are embedded below; the external Binance price map
is a parameter `binance : String → Option ℚ` (absent symbol = no data,
matching `fetchBinanceMap` returning a partial map). -/

/-- One `chartHistory` point `{ price, ts }`. -/
structure ChartPoint where
  price : ℚ
  ts : Nat

/-- A `Coin` document (`backend/models/Coin.js`), restricted to the fields
the price engine reads or writes. -/
structure Coin where
  symbol : String
  price : ℚ
  previousPrice : ℚ
  chartHistory : List ChartPoint
  adminControlEnabled : Bool
  targetPrice : Option ℚ
  driftSpeed : ℚ
  lastPriceUpdate : Nat

/-- `MAX_CHART_POINTS = Math.max(50, parseInt(env || "500"))`: the history
cap, default `500`, floored at `50`. -/
def maxChartPoints (env : Option Nat) : Nat := max 50 (env.getD 500)

/-- Keep the last `n` elements: the effect of `$push` with
`$slice: -n`. -/
def takeRight (n : Nat) (l : List α) : List α := l.drop (l.length - n)

/-- The next price of one coin (priceUpdater.js lines 60–89): admin drift
toward `targetPrice` when enabled, else the Binance price for
`SYMBOL + "USDT"` when present, else unchanged; finally floored at zero.
The `Number.isFinite` guards of the source are vacuous over `ℚ`. -/
def computeNewPrice (binance : String → Option ℚ) (c : Coin) : ℚ :=
  let current := jsOr c.price 0
  let raw :=
    match c.adminControlEnabled, c.targetPrice with
    | true, some target =>
      let driftSpeed := max 0 (jsOr c.driftSpeed (3/100))
      let step := (target - current) * driftSpeed
      rnd8 (current + step)
    | _, _ =>
      match binance (upStr (c.symbol ++ "USDT")) with
      | some p => p
      | none => current
  if raw < 0 then max 0 current else raw

/-- The per-document effect of one engine tick (priceUpdater.js lines
91–115): `$set {previousPrice: Number(prev), price: newPrice,
lastPriceUpdate}` and `$push {chartHistory: {$each: [point],
$slice: -cap}}`, where `prev = Number(c.previousPrice || current)`. -/
def updateCoinOnce (binance : String → Option ℚ) (cap : Nat) (now : Nat)
    (c : Coin) : Coin :=
  let current := jsOr c.price 0
  let prev := jsOr c.previousPrice current
  let newPrice := computeNewPrice binance c
  let chartPoint : ChartPoint := ⟨newPrice, now⟩
  let hist := takeRight cap (c.chartHistory ++ [chartPoint])
  { c with previousPrice := prev, price := newPrice, lastPriceUpdate := now, chartHistory := hist }

/-- `updatePricesOnce` over the whole collection: the bulk write updates
every document independently (`ordered: false`). -/
def updatePricesOnce (binance : String → Option ℚ) (cap : Nat) (now : Nat)
    (coins : List Coin) : List Coin :=
  coins.map (updateCoinOnce binance cap now)

/-- `n` successive engine ticks on one coin; tick `k` sees the external
map `binance k` and stamps time `k`. -/
def runTicks (binance : Nat → String → Option ℚ) (cap : Nat) (c : Coin) :
    Nat → Coin
  | 0 => c
  | n + 1 => updateCoinOnce (binance n) cap n (runTicks binance cap c n)

/-! ## Custom-coin price simulator (`runCoinSimulator`)

The per-coin body of `runCoinSimulator`, lines 41–123 of the simulator
file.  `Math.random()` is passed in as `rand ∈ [0,1)` and the CoinGecko
BTC reference as `btcPrice` (`none` when the fetch failed).  The
candlestick bookkeeping (lines 77–101) only maintains the OHLC chart; it
never feeds back into price, mode, target or direction and no claim
mentions it, so it is not modelled. -/

/-- A `CustomCoin` document, restricted to the fields the simulator reads
or writes; `updatedAt` is the mongoose-managed modification timestamp. -/
structure CustomCoin where
  symbol : String
  price : ℚ
  priceMode : String
  targetPrice : Option ℚ
  priceDirection : String
  priceTimerEnd : Option Nat
  updatedAt : Option Nat
  lastPriceUpdate : Nat

/-- `coin.priceTimerEnd && coin.priceTimerEnd.getTime() > Date.now()`. -/
def timerRunning (now : Nat) : Option Nat → Bool
  | some te => decide (now < te)
  | none => false

/-- `coin.priceTimerEnd && coin.priceTimerEnd.getTime() <= Date.now()`. -/
def timerExpired (now : Nat) : Option Nat → Bool
  | some te => decide (te ≤ now)
  | none => false

/-- `interpolatePrice(current, target, stepFraction)` (simulator lines
29–31). -/
def interpolatePrice (current target stepFraction : ℚ) : ℚ :=
  current + (target - current) * stepFraction

/-- The interpolation fraction `0.15 + stepFraction * 0.6` of simulator
lines 47–51, where `stepFraction = min(1, elapsed/total)`,
`total = max(1, end - updatedAt)` and `elapsed = max(0, now - updatedAt)`
(the `Nat` subtractions truncate at `0` exactly where the JS `Math.max`
clamps would). -/
def simFraction (now upd tEnd : Nat) : ℚ :=
  let timerTotal : Nat := max 1 (tEnd - upd)
  let timerElapsed : Nat := max 0 (now - upd)
  let stepFraction : ℚ := min 1 ((timerElapsed : ℚ) / (timerTotal : ℚ))
  15/100 + stepFraction * (60/100)

/-- The random-walk branch (simulator lines 55–64): a percentage step,
BTC-referenced when a positive BTC price is available, else
`(rand - 0.5) * 0.06`; its sign is forced by `priceDirection`; the result
is floored at `0.01`. -/
def randomWalkPrice (btcPrice : Option ℚ) (rand current : ℚ)
    (direction : String) : ℚ :=
  let pct :=
    match btcPrice with
    | some b => if 0 < b then ((b - current) / b) * (rand * (5/100)) else (rand - 1/2) * (6/100)
    | none => (rand - 1/2) * (6/100)
  let pct :=
    if direction = "bull" then |pct|
    else if direction = "bear" then -|pct|
    else pct
  max (1/100) (current + current * pct)

/-- The per-coin body of `runCoinSimulator` (simulator lines 41–123
without the candlestick bookkeeping): compute the new price (manual
interpolation toward the target while the countdown runs, random walk
otherwise), round it to 6 decimals, and degrade an expired manual mode to
`random` with the target cleared. -/
def simulateCoinOnce (btcPrice : Option ℚ) (rand : ℚ) (now : Nat)
    (coin : CustomCoin) : CustomCoin :=
  let current := jsOr coin.price 0
  let target := coin.targetPrice.getD 0
  let upd := coin.updatedAt.getD now
  let tEnd := coin.priceTimerEnd.getD 0
  let manualActive : Bool :=
    (coin.priceMode == "manual") && coin.targetPrice.isSome && timerRunning now coin.priceTimerEnd
  let priced : ℚ × String :=
    if manualActive then
      let np := interpolatePrice current target (simFraction now upd tEnd)
      let np := if |np - target| < 1/100 then target else np
      let dir :=
        if coin.price < target then "bull"
        else if target < coin.price then "bear" else "neutral"
      (np, dir)
    else
      (randomWalkPrice btcPrice rand current coin.priceDirection, coin.priceDirection)
  let newPrice := rnd6 priced.1
  let expired : Bool := (coin.priceMode == "manual") && timerExpired now coin.priceTimerEnd
  { coin with
    price := newPrice,
    priceMode := if expired then "random" else coin.priceMode,
    targetPrice := if expired then none else coin.targetPrice,
    priceDirection := jsOrStr priced.2 "neutral",
    updatedAt := some now,
    lastPriceUpdate := now }

/-! ## Interleaved ledger postings

`postLedgerEntry` suspends at two `await` points: the balance read and the
row creation.  Splitting the function there gives a two-phase thread; a
schedule interleaves two such threads posting to the same
`(accountId, assetCode)` key, exactly as Node's event loop may interleave
two concurrent HTTP handlers at their `await`s. -/

/-- Where a posting thread stands: before its balance read, holding the
balance it read, or done. -/
inductive PostPhase where
  | ready
  | mid (prev : ℚ)
  | finished

/-- The write half of `postLedgerEntry` (lines 58–68): validate the new
balance and append the row.  Returns the unchanged ledger when the
insufficient-balance throw fires. -/
def postWrite (st : LedgerState) (userId entryType coin : String)
    (d prev : ℚ) (now : Nat) : LedgerState :=
  let newBalance := prev + d
  if newBalance < 0 then st
  else
    let entry : LedgerEntry :=
      { seq := st.entries.length, user := userId, entryType := entryType,
        coin := upStr coin, amount := d, balance := newBalance, createdAt := now }
    { entries := st.entries ++ [entry] }

/-- Advance one posting thread by one phase against the shared ledger. -/
def stepThread (userId entryType coin : String) (d : ℚ) (now : Nat) :
    PostPhase → LedgerState → PostPhase × LedgerState
  | .ready, st => (.mid (getBalance st userId (upStr coin)), st)
  | .mid prev, st => (.finished, postWrite st userId entryType coin d prev now)
  | .finished, st => (.finished, st)

/-- Two posting threads `A` (delta `dA`) and `B` (delta `dB`) on the same
key, driven by a schedule: `true` steps `A`, `false` steps `B`; the shared
clock advances with every step so later writes get later `createdAt`. -/
structure TwoPosts where
  phaseA : PostPhase
  phaseB : PostPhase
  st : LedgerState
  clock : Nat

/-- Run a schedule over the two threads. -/
def runSchedule (userId entryType coin : String) (dA dB : ℚ) :
    List Bool → TwoPosts → TwoPosts
  | [], s => s
  | b :: rest, s =>
    if b then
      let (ph, st) := stepThread userId entryType coin dA s.clock s.phaseA s.st
      runSchedule userId entryType coin dA dB rest
        { phaseA := ph, phaseB := s.phaseB, st := st, clock := s.clock + 1 }
    else
      let (ph, st) := stepThread userId entryType coin dB s.clock s.phaseB s.st
      runSchedule userId entryType coin dA dB rest
        { phaseA := s.phaseA, phaseB := ph, st := st, clock := s.clock + 1 }

/-- Both threads still to run, over a given start ledger. -/
def initialTwoPosts (st : LedgerState) : TwoPosts :=
  { phaseA := .ready, phaseB := .ready, st := st, clock := 0 }

/-! ## Concrete objects used by witnesses and counterexamples -/

/-- A `ℚ` lying on the 8-decimal grid `toFixed(8)` rounds to. -/
def grid8 (q : ℚ) : Prop := ∃ i : ℤ, q = (i : ℚ) / 100000000

/-- A `ℚ` lying on the 6-decimal grid `toFixed(6)` rounds to. -/
def grid6 (q : ℚ) : Prop := ∃ i : ℤ, q = (i : ℚ) / 1000000

/-- An empty external price map: the Binance fetch failed or returned no
usable symbols. -/
def noBinance : String → Option ℚ := fun _ => none

/-- A market-tracked coin whose previous tick moved it from 100 to 110:
`price = 110`, `previousPrice = 100`, no admin control. -/
def marketCoinStale : Coin :=
  { symbol := "BTC", price := 110, previousPrice := 100, chartHistory := [],
    adminControlEnabled := false, targetPrice := none, driftSpeed := 3/100,
    lastPriceUpdate := 0 }

/-- The admin-drift example of the spec: current 100, target 150,
drift speed 0.5. -/
def driftExampleCoin : Coin :=
  { symbol := "EXM", price := 100, previousPrice := 100, chartHistory := [],
    adminControlEnabled := true, targetPrice := some 150, driftSpeed := 1/2,
    lastPriceUpdate := 0 }

/-- An admin-drift coin whose target `5·10⁻⁹` lies strictly between two
8-decimal grid points: price 0, drift speed 1. -/
def overshootCoin : Coin :=
  { symbol := "OVR", price := 0, previousPrice := 0, chartHistory := [],
    adminControlEnabled := true, targetPrice := some (1/200000000), driftSpeed := 1,
    lastPriceUpdate := 0 }

/-- A syntactically valid MongoDB ObjectId string. -/
def hexId : String := "aaaaaaaaaaaaaaaaaaaaaaaa"

/-- Tied ledger rows: same user, same coin, same `createdAt`, inserted in
the order `tieEntryA` (balance 5) then `tieEntryB` (balance 7). -/
def tieEntryA : LedgerEntry :=
  { seq := 0, user := hexId, entryType := "adjustment", coin := "BTC",
    amount := 5, balance := 5, createdAt := 10 }

/-- The second, later-inserted row of the tie. -/
def tieEntryB : LedgerEntry :=
  { seq := 1, user := hexId, entryType := "adjustment", coin := "BTC",
    amount := 2, balance := 7, createdAt := 10 }

/-- A ledger holding exactly the two tied rows. -/
def tieLedger : LedgerState := ⟨[tieEntryA, tieEntryB]⟩

/-- A row with a distinct, earlier timestamp (balance 3). -/
def w5EntryA : LedgerEntry :=
  { seq := 0, user := hexId, entryType := "deposit", coin := "BTC",
    amount := 3, balance := 3, createdAt := 1 }

/-- A row with a distinct, later timestamp (balance 9). -/
def w5EntryB : LedgerEntry :=
  { seq := 1, user := hexId, entryType := "deposit", coin := "BTC",
    amount := 6, balance := 9, createdAt := 2 }

/-- A ledger holding the two distinct-timestamp rows. -/
def w5Ledger : LedgerState := ⟨[w5EntryA, w5EntryB]⟩

/-- An application state whose wallet-summary cache holds a fresh entry
for user `"u1"`, who exists with no embedded wallets and an empty
ledger. -/
def c3State : AppState Unit :=
  { ledger := emptyLedger,
    users := [{ id := "u1", wallets := [] }],
    walletDocs := [{ id := "w1", user := "u1", coin := "USDT", amount := 25, status := "pending" }],
    cache := { map := [("u1", ⟨0, ()⟩)], ttl := .num 8000 } }

/-- A custom coin in manual mode with a live countdown: price 100, target
within snapping distance after interpolation. -/
def manualSnapCoin : CustomCoin :=
  { symbol := "CST", price := 100, priceMode := "manual", targetPrice := some (10001/100),
    priceDirection := "neutral", priceTimerEnd := some 1000, updatedAt := some 0,
    lastPriceUpdate := 0 }

/-- A custom coin in manual mode whose countdown has expired. -/
def manualExpiredCoin : CustomCoin :=
  { symbol := "CST", price := 100, priceMode := "manual", targetPrice := some 120,
    priceDirection := "bull", priceTimerEnd := some 1000, updatedAt := some 0,
    lastPriceUpdate := 0 }

/-- A custom coin already degraded to random-walk mode. -/
def randomModeCoin : CustomCoin :=
  { symbol := "CST", price := 100, priceMode := "random", targetPrice := none,
    priceDirection := "bull", priceTimerEnd := none, updatedAt := some 0,
    lastPriceUpdate := 0 }

/-- The per-coin body of `randomizePricesOnce`
(`backend/utils/priceRandomizer.js` lines 13–36): a ±5% random move,
rounded to 6 decimals and floored at 0.01, with `previousPrice` set to the
pre-run price and the history pushed with the *hardcoded* `$slice: -500`
(the file's comment defers the real cap to `MAX_CHART_POINTS` in
`priceUpdater`, but this operation itself never consults it). -/
def randomizeCoinOnce (rand : ℚ) (now : Nat) (c : Coin) : Coin :=
  let current := jsOr c.price 0
  let change := (rand - 1/2) * (1/10)
  let newPrice := max (1/100) (rnd6 (current * (1 + change)))
  let hist := takeRight 500 (c.chartHistory ++ [⟨newPrice, now⟩])
  { c with previousPrice := current, price := newPrice, lastPriceUpdate := now, chartHistory := hist }

/-- A coin whose history already holds exactly 50 points — a configured
cap `MAX_CHART_POINTS = 50` is full. -/
def capCoin : Coin :=
  { symbol := "CAP", price := 1, previousPrice := 1,
    chartHistory := List.replicate 50 ⟨1, 0⟩,
    adminControlEnabled := false, targetPrice := none, driftSpeed := 3/100,
    lastPriceUpdate := 0 }

/-- A manual-mode custom coin with a live countdown whose target
`1/3000000` does not lie on the 6-decimal grid `toFixed(6)` preserves. -/
def offGridCoin : CustomCoin :=
  { symbol := "OFG", price := 0, priceMode := "manual", targetPrice := some (1/3000000),
    priceDirection := "neutral", priceTimerEnd := some 1000, updatedAt := some 0,
    lastPriceUpdate := 0 }

/-- First of two same-millisecond sequential posts: +100 at `createdAt`
5, resulting balance 100. -/
def tieRunA : LedgerEntry :=
  { seq := 0, user := "u1", entryType := "adjustment", coin := "USDT",
    amount := 100, balance := 100, createdAt := 5 }

/-- Second same-millisecond post: +50, also at `createdAt` 5, resulting
balance 150. -/
def tieRunB : LedgerEntry :=
  { seq := 1, user := "u1", entryType := "adjustment", coin := "USDT",
    amount := 50, balance := 150, createdAt := 5 }

/-- The ledger after the two same-millisecond posts. -/
def tiePostLedger : LedgerState := ⟨[tieRunA, tieRunB]⟩

/-- The row a successful `postLedgerEntry st u ty c (.num d) t` appends. -/
def mkEntry (st : LedgerState) (u ty c : String) (d : ℚ) (t : Nat) : LedgerEntry :=
  { seq := st.entries.length, user := u, entryType := ty, coin := upStr c,
    amount := d, balance := getBalance st u c + d, createdAt := t }

/-! # Theorems

General toolkit lemmas first, then, per claim, the claim theorem together
with its witness or counterexample. -/

theorem charToNat_ofNat_of_lt {n : Nat} (h : n < 55296) : (Char.ofNat n).toNat = n := by
  have hv : n.isValidChar := Or.inl h
  simp [Char.ofNat, hv, Char.ofNatAux, Char.toNat, UInt32.toNat, BitVec.toNat_ofNatLt]

theorem upChar_idem (ch : Char) : upChar (upChar ch) = upChar ch := by
  unfold upChar
  by_cases h : 97 ≤ ch.toNat ∧ ch.toNat ≤ 122
  · rw [if_pos h]
    have h2 : (Char.ofNat (ch.toNat - 32)).toNat = ch.toNat - 32 :=
      charToNat_ofNat_of_lt (by omega)
    have h3 : ¬(97 ≤ (Char.ofNat (ch.toNat - 32)).toNat ∧
        (Char.ofNat (ch.toNat - 32)).toNat ≤ 122) := by
      rw [h2]; omega
    rw [if_neg h3]
  · rw [if_neg h, if_neg h]

theorem upStr_idem (s : String) : upStr (upStr s) = upStr s := by
  unfold upStr
  congr 1
  rw [List.map_map]
  exact List.map_congr_left fun a _ => upChar_idem a

theorem entriesFor_upStr (l : List LedgerEntry) (u c : String) :
    entriesFor l u (upStr c) = entriesFor l u c := by
  unfold entriesFor
  rw [upStr_idem]

theorem getBalance_upStr (st : LedgerState) (u c : String) :
    getBalance st u (upStr c) = getBalance st u c := by
  unfold getBalance
  rw [entriesFor_upStr]

theorem foldl_pickLatest_mem :
    ∀ (l : List LedgerEntry) (acc : Option LedgerEntry) (a : LedgerEntry),
      l.foldl pickLatest acc = some a → a ∈ l ∨ acc = some a := by
  intro l
  induction l with
  | nil =>
    intro acc a h
    right
    simpa using h
  | cons e l ih =>
    intro acc a h
    rw [List.foldl_cons] at h
    rcases ih (pickLatest acc e) a h with h1 | h2
    · exact Or.inl (List.mem_cons_of_mem _ h1)
    · cases acc with
      | none =>
        simp only [pickLatest] at h2
        cases h2
        exact Or.inl (List.mem_cons_self _ _)
      | some b =>
        simp only [pickLatest] at h2
        by_cases hle : b.createdAt ≤ e.createdAt
        · rw [if_pos hle] at h2
          cases h2
          exact Or.inl (List.mem_cons_self _ _)
        · rw [if_neg hle] at h2
          exact Or.inr h2

theorem latestEntry_mem {l : List LedgerEntry} {a : LedgerEntry}
    (h : latestEntry l = some a) : a ∈ l := by
  rcases foldl_pickLatest_mem l none a h with h1 | h2
  · exact h1
  · cases h2

theorem latestEntry_append {l : List LedgerEntry} {e : LedgerEntry}
    (h : ∀ x ∈ l, x.createdAt ≤ e.createdAt) : latestEntry (l ++ [e]) = some e := by
  unfold latestEntry
  rw [List.foldl_append]
  simp only [List.foldl_cons, List.foldl_nil]
  cases hacc : l.foldl pickLatest none with
  | none => simp [pickLatest]
  | some a =>
    have ha : a ∈ l := latestEntry_mem hacc
    simp [pickLatest, h a ha]

theorem entriesFor_append (l : List LedgerEntry) (e : LedgerEntry) (u c : String) :
    entriesFor (l ++ [e]) u c =
      entriesFor l u c ++ List.filter (fun x => x.user == u && x.coin == upStr c) [e] := by
  unfold entriesFor
  rw [List.filter_append]

theorem postLedgerEntry_ok (st : LedgerState) (u ty c : String) (d : ℚ) (t : Nat)
    (h : 0 ≤ getBalance st u c + d) :
    postLedgerEntry st u ty c (.num d) t =
      (⟨st.entries ++ [mkEntry st u ty c d t]⟩, .ok (mkEntry st u ty c d t, getBalance st u c + d)) := by
  simp only [postLedgerEntry, getBalance_upStr, mkEntry]
  rw [if_neg (not_lt.mpr h)]

theorem getBalance_after_post (st : LedgerState) (u ty c : String) (d : ℚ) (t : Nat)
    (h : 0 ≤ getBalance st u c + d)
    (hfresh : ∀ x ∈ entriesFor st.entries u c, x.createdAt ≤ t) :
    getBalance (postLedgerEntry st u ty c (.num d) t).1 u c = getBalance st u c + d := by
  rw [postLedgerEntry_ok st u ty c d t h]
  unfold getBalance
  rw [entriesFor_append]
  have hone : List.filter (fun x => x.user == u && x.coin == upStr c) [mkEntry st u ty c d t] =
      [mkEntry st u ty c d t] := by
    simp [mkEntry]
  rw [hone, latestEntry_append (by simpa [mkEntry] using hfresh)]
  simp [mkEntry, getBalance]

theorem runPosts_spec (u ty c : String) :
    ∀ (ps : List (ℚ × Nat)) (st : LedgerState),
      (ps.map Prod.snd).Pairwise (· < ·) →
      (∀ e ∈ entriesFor st.entries u c, ∀ t ∈ ps.map Prod.snd, e.createdAt < t) →
      (∀ k, k ≤ ps.length → 0 ≤ getBalance st u c + ((ps.map Prod.fst).take k).sum) →
      ∃ st', runPosts u ty c st ps = .ok st' ∧
        getBalance st' u c = getBalance st u c + (ps.map Prod.fst).sum := by
  intro ps
  induction ps with
  | nil =>
    intro st _ _ _
    exact ⟨st, rfl, by simp [runPosts]⟩
  | cons p rest ih =>
    obtain ⟨d, t⟩ := p
    intro st hmono hfresh hnn
    have hd : 0 ≤ getBalance st u c + d := by
      have h1 := hnn 1 (by simp)
      simpa using h1
    have hpost := postLedgerEntry_ok st u ty c d t hd
    have hfresh' : ∀ x ∈ entriesFor st.entries u c, x.createdAt ≤ t := by
      intro x hx
      exact le_of_lt (hfresh x hx t (by simp))
    have hbal1 : getBalance (⟨st.entries ++ [mkEntry st u ty c d t]⟩ : LedgerState) u c =
        getBalance st u c + d := by
      have hb := getBalance_after_post st u ty c d t hd hfresh'
      rw [hpost] at hb
      exact hb
    have hmc : (List.map Prod.snd ((d, t) :: rest)).Pairwise (· < ·) := hmono
    rw [List.map_cons] at hmc
    have hmono' := List.pairwise_cons.mp hmc
    have hfresh1 : ∀ e ∈ entriesFor (st.entries ++ [mkEntry st u ty c d t]) u c,
        ∀ t' ∈ rest.map Prod.snd, e.createdAt < t' := by
      intro e he t' ht'
      rw [entriesFor_append] at he
      rcases List.mem_append.mp he with hold | hnew
      · exact hfresh e hold t' (by simp [ht'])
      · have hm := (List.mem_filter.mp hnew).1
        have he2 : e = mkEntry st u ty c d t := by simpa using hm
        rw [he2]
        exact hmono'.1 t' ht'
    have hnn1 : ∀ k, k ≤ rest.length →
        0 ≤ getBalance (⟨st.entries ++ [mkEntry st u ty c d t]⟩ : LedgerState) u c +
          ((rest.map Prod.fst).take k).sum := by
      intro k hk
      rw [hbal1]
      have h2 := hnn (k + 1) (by simpa using Nat.succ_le_succ hk)
      simpa [add_assoc] using h2
    obtain ⟨st', hrun, hbal⟩ := ih ⟨st.entries ++ [mkEntry st u ty c d t]⟩ hmono'.2 hfresh1 hnn1
    refine ⟨st', ?_, ?_⟩
    · simp only [runPosts]
      rw [hpost]
      exact hrun
    · rw [hbal, hbal1]
      simp [add_assoc]

/-- C1 (amended): starting from an empty ledger, a finite sequence of
sequential `postLedgerEntry` calls on one `(accountId, assetCode)` pair,
each call observing a strictly later creation timestamp, in which no call
would drive the running balance negative, all succeed, and the final
`getBalance` for the pair equals the sum of all posted deltas.  (Distinct
timestamps are necessary: when two sequential posts land on the same
`createdAt` millisecond the `findOne` sort's tie order is unspecified and
an admissible final read can miss the later post — see the
counterexample.) -/
theorem ledger_sequential_posts_sum (u ty c : String) (ps : List (ℚ × Nat))
    (hmono : (ps.map Prod.snd).Pairwise (· < ·))
    (hnn : ∀ k, k ≤ ps.length → 0 ≤ ((ps.map Prod.fst).take k).sum) :
    ∃ st', runPosts u ty c emptyLedger ps = .ok st' ∧
      getBalance st' u c = (ps.map Prod.fst).sum := by
  have h0 : getBalance emptyLedger u c = 0 := rfl
  have h := runPosts_spec u ty c ps emptyLedger hmono
    (by intro e he; simp [entriesFor, emptyLedger] at he)
    (by intro k hk; rw [h0]; simpa using hnn k hk)
  rw [h0] at h
  simpa using h

/-- Witness for C1: posting +100 then −30 to one pair of an empty ledger
succeeds and leaves `getBalance` at 70 = 100 − 30. -/
theorem ledger_sequential_posts_sum_witness :
    ∃ st', runPosts "u1" "adjustment" "USDT" emptyLedger [(100, 0), (-30, 1)] = .ok st' ∧
      getBalance st' "u1" "USDT" = 70 := by
  have h := ledger_sequential_posts_sum "u1" "adjustment" "USDT" [(100, 0), (-30, 1)]
    (by simp) (by
      intro k hk
      simp only [List.length_cons, List.length_nil] at hk
      interval_cases k <;> norm_num)
  obtain ⟨st', hrun, hbal⟩ := h
  refine ⟨st', hrun, ?_⟩
  rw [hbal]
  norm_num

/-- Counterexample to C1 as stated: two sequential posts (+100 then +50)
landing on the same `createdAt` millisecond both succeed, but the final
`findOne().sort({createdAt:-1})` read may surface either tied row, so an
admissible `getBalance` result is 100 — not the sum 100 + 50 = 150 the
claim requires for every sequential execution. -/
theorem ledger_tie_sum_ambiguous :
    runPosts "u1" "adjustment" "USDT" emptyLedger [(100, 5), (50, 5)] = .ok tiePostLedger ∧
    getBalanceRel tiePostLedger "u1" "USDT" 150 ∧
    getBalanceRel tiePostLedger "u1" "USDT" 100 ∧
    ((100 : ℚ) + 50 = 150) ∧ (100 : ℚ) ≠ 150 := by
  have hU : upStr "USDT" = "USDT" := rfl
  have hfilter : entriesFor tiePostLedger.entries "u1" "USDT" = [tieRunA, tieRunB] := rfl
  refine ⟨?_, ?_, ?_, by norm_num, by norm_num⟩
  · norm_num [runPosts, postLedgerEntry, getBalance, entriesFor, latestEntry, pickLatest,
      emptyLedger, tiePostLedger, tieRunA, tieRunB, hU, List.filter, List.foldl]
  · refine Or.inr ⟨tieRunB, ?_, ?_, rfl⟩
    · rw [hfilter]
      exact List.mem_cons_of_mem _ (List.mem_cons_self _ _)
    · intro x hx
      rw [hfilter] at hx
      have hx2 : x = tieRunA ∨ x = tieRunB := by simpa using hx
      rcases hx2 with rfl | rfl <;> simp [tieRunA, tieRunB]
  · refine Or.inr ⟨tieRunA, ?_, ?_, rfl⟩
    · rw [hfilter]
      exact List.mem_cons_self _ _
    · intro x hx
      rw [hfilter] at hx
      have hx2 : x = tieRunA ∨ x = tieRunB := by simpa using hx
      rcases hx2 with rfl | rfl <;> simp [tieRunA, tieRunB]

/-- C2 (amended): `postLedgerEntry` throws `"Amount required"` (the
InvalidAmount rejection) exactly when the delta is not a finite number —
a zero delta passes the check and posts a row; given a finite delta it
throws `"Insufficient balance"` exactly when `previousBalance + delta < 0`;
and every failure leaves the ledger unchanged (no new row). -/
theorem postLedgerEntry_error_spec (st : LedgerState) (u ty c : String) (v : JsVal) (t : Nat) :
    (postLedgerEntry st u ty c v t = (st, .error "Amount required") ↔ v.isFiniteNum = false) ∧
    (∀ d : ℚ, v = .num d →
      (postLedgerEntry st u ty c v t = (st, .error "Insufficient balance") ↔
        getBalance st u c + d < 0)) ∧
    (∀ msg, (postLedgerEntry st u ty c v t).2 = .error msg →
      (postLedgerEntry st u ty c v t).1 = st) := by
  refine ⟨?_, ?_, ?_⟩
  · cases v with
    | num d =>
      simp only [JsVal.isFiniteNum]
      constructor
      · intro h
        by_cases hlt : getBalance st u c + d < 0
        · rw [show postLedgerEntry st u ty c (.num d) t = (st, .error "Insufficient balance") by
            simp only [postLedgerEntry, getBalance_upStr]; rw [if_pos hlt]] at h
          have := congrArg Prod.snd h
          simp at this
        · rw [postLedgerEntry_ok st u ty c d t (le_of_not_lt hlt)] at h
          have := congrArg Prod.snd h
          simp at this
      · intro h
        cases h
    | nan => simp [postLedgerEntry, JsVal.isFiniteNum]
    | posInfty => simp [postLedgerEntry, JsVal.isFiniteNum]
    | negInfty => simp [postLedgerEntry, JsVal.isFiniteNum]
    | nonNumber => simp [postLedgerEntry, JsVal.isFiniteNum]
  · rintro d rfl
    constructor
    · intro h
      by_contra hlt
      rw [postLedgerEntry_ok st u ty c d t (le_of_not_lt hlt)] at h
      have := congrArg Prod.snd h
      simp at this
    · intro hlt
      simp only [postLedgerEntry, getBalance_upStr]
      rw [if_pos hlt]
  · intro msg h
    cases v with
    | num d =>
      by_cases hlt : getBalance st u c + d < 0
      · simp only [postLedgerEntry, getBalance_upStr]
        rw [if_pos hlt]
      · rw [postLedgerEntry_ok st u ty c d t (le_of_not_lt hlt)] at h
        simp at h
    | nan => rfl
    | posInfty => rfl
    | negInfty => rfl
    | nonNumber => rfl

/-- Witness for C2 (amended): a `NaN` delta is rejected with
`"Amount required"` and leaves the ledger unchanged. -/
theorem postLedgerEntry_error_spec_witness :
    postLedgerEntry emptyLedger "u1" "trade" "USDT" .nan 3 =
      (emptyLedger, .error "Amount required") :=
  (postLedgerEntry_error_spec emptyLedger "u1" "trade" "USDT" .nan 3).1.mpr rfl

/-- Counterexample to C2 as stated: a zero delta is not rejected with
InvalidAmount — the call succeeds and appends a ledger row, so "fails with
InvalidAmount exactly when the delta is non-finite or zero" is false at
`delta = 0`. -/
theorem postLedgerEntry_zero_delta_accepted :
    (postLedgerEntry emptyLedger "u1" "adjustment" "USDT" (.num 0) 0).2 =
      .ok (mkEntry emptyLedger "u1" "adjustment" "USDT" 0 0, 0) ∧
    (postLedgerEntry emptyLedger "u1" "adjustment" "USDT" (.num 0) 0).1.entries.length = 1 := by
  have h0 : getBalance emptyLedger "u1" "USDT" = 0 := rfl
  have h := postLedgerEntry_ok emptyLedger "u1" "adjustment" "USDT" 0 0 (by rw [h0]; norm_num)
  rw [h0] at h
  norm_num at h
  rw [h]
  exact ⟨rfl, rfl⟩

/-- C10: `setTTL(ms)` leaves the TTL unchanged whenever `Number(ms)` is
`0` or `NaN` (so `setTTL(0)`, `setTTL(null)`, `setTTL(undefined)` and
`setTTL("abc")` are all no-ops), and no argument whatsoever can set the
TTL to zero through `setTTL`. -/
theorem setTTL_spec (α : Type) (cache : WalletSummaryCache α) :
    (cache.setTTL (.num 0) = cache ∧ cache.setTTL .nan = cache) ∧
    (∀ v : JsVal, cache.ttl ≠ .num 0 → (cache.setTTL v).ttl ≠ .num 0) := by
  constructor
  · constructor <;> simp [WalletSummaryCache.setTTL, JsVal.truthy]
  · intro v httl
    cases v with
    | num q =>
      by_cases hq : q = 0
      · subst hq
        simpa [WalletSummaryCache.setTTL, JsVal.truthy] using httl
      · simp [WalletSummaryCache.setTTL, JsVal.truthy, hq]
    | nan => simpa [WalletSummaryCache.setTTL, JsVal.truthy] using httl
    | posInfty => simp [WalletSummaryCache.setTTL, JsVal.truthy]
    | negInfty => simp [WalletSummaryCache.setTTL, JsVal.truthy]
    | nonNumber => simp [WalletSummaryCache.setTTL, JsVal.truthy]

/-- Witness for C10: on the exported singleton, `setTTL(0)` is a no-op and
`setTTL(5)` cannot produce a zero TTL. -/
theorem setTTL_spec_witness :
    (WalletSummaryCache.init Unit).setTTL (.num 0) = WalletSummaryCache.init Unit ∧
    ((WalletSummaryCache.init Unit).setTTL (.num 5)).ttl ≠ .num 0 := by
  refine ⟨(setTTL_spec Unit (WalletSummaryCache.init Unit)).1.1, ?_⟩
  refine (setTTL_spec Unit (WalletSummaryCache.init Unit)).2 (.num 5) ?_
  simp [WalletSummaryCache.init]

/-- C3 (amended): none of the ledger-mutating admin operations —
`adminSetBalance`, `adjustBalance`, `approveWallet` — touches the
wallet-summary cache at all: on every path, success or failure, the cache
after the call is the cache before it (the cache module has no caller in
the codebase), so freshness is bounded only by the TTL. -/
theorem controllers_never_invalidate (α : Type) (st : AppState α)
    (userId coin id wid : String) (balance : JsVal) (delta : Option JsVal) (now : Nat) :
    (adminSetBalance st userId coin balance now).1.cache = st.cache ∧
    (adjustBalance st id coin delta now).1.cache = st.cache ∧
    (approveWallet st wid now).1.cache = st.cache := by
  refine ⟨?_, ?_, ?_⟩
  · simp only [adminSetBalance]
    repeat first | rfl | split
  · simp only [adjustBalance]
    repeat first | rfl | split
  · simp only [approveWallet]
    repeat first | rfl | split

/-- Counterexample to C3 as stated: from a state whose cache holds an
entry for account `"u1"`, `adminSetBalance` succeeds (one ledger row is
written) yet the cache entry for `"u1"` is still present afterwards —
nothing invalidated it. -/
theorem adminSetBalance_cache_survives :
    (adminSetBalance c3State "u1" "USDT" (.num 100) 5).2 = .ok ∧
    (adminSetBalance c3State "u1" "USDT" (.num 100) 5).1.ledger.entries.length = 1 ∧
    (adminSetBalance c3State "u1" "USDT" (.num 100) 5).1.cache.map = [("u1", ⟨0, ()⟩)] := by
  have hU : upStr "USDT" = "USDT" := rfl
  have h1 : ("u1" : String) = "" ↔ False := by simp
  have h2 : ("USDT" : String) = "" ↔ False := by simp
  norm_num [adminSetBalance, c3State, emptyLedger, getBalance, entriesFor, latestEntry,
    postLedgerEntry, syncWallet, saveUser, updateFirst, List.find?, hU, h1, h2]

/-- C4 (code bug): on a tick with no external data, the engine writes the
*old* `previousPrice` back (`prev = Number(c.previousPrice || current)`)
instead of the pre-tick price, so for `marketCoinStale` (price 110,
previousPrice 100) the update leaves `previousPrice = 100 ≠ 110 = price`;
the claimed post-state `price = previousPrice` fails even though the
history does grow by one point equal to the unchanged price. -/
theorem priceUpdater_previousPrice_stale :
    (updateCoinOnce noBinance 500 7 marketCoinStale).previousPrice = 100 ∧
    (updateCoinOnce noBinance 500 7 marketCoinStale).price = 110 ∧
    marketCoinStale.price = 110 ∧
    (updateCoinOnce noBinance 500 7 marketCoinStale).previousPrice ≠ marketCoinStale.price ∧
    (updateCoinOnce noBinance 500 7 marketCoinStale).chartHistory = [⟨110, 7⟩] := by
  norm_num [updateCoinOnce, computeNewPrice, marketCoinStale, noBinance, jsOr, takeRight]

theorem jsOr_zero (a : ℚ) : jsOr a 0 = a := by
  unfold jsOr
  split <;> simp_all

theorem rnd8_mono {x y : ℚ} (h : x ≤ y) : rnd8 x ≤ rnd8 y := by
  unfold rnd8
  have hq : ((⌊x * 100000000 + 1/2⌋ : ℤ) : ℚ) ≤ ((⌊y * 100000000 + 1/2⌋ : ℤ) : ℚ) := by
    exact_mod_cast Int.floor_le_floor (by linarith)
  exact (div_le_div_iff_of_pos_right (by norm_num)).mpr hq

theorem rnd8_grid {q : ℚ} (h : grid8 q) : rnd8 q = q := by
  obtain ⟨i, rfl⟩ := h
  unfold rnd8
  have h1 : (i : ℚ) / 100000000 * 100000000 + 1/2 = (i : ℚ) + 1/2 := by
    rw [div_mul_cancel₀]
    norm_num
  rw [h1, Int.floor_int_add]
  have h2 : ⌊(1/2 : ℚ)⌋ = 0 := by norm_num
  rw [h2]
  norm_num

theorem grid8_min {a b : ℚ} (ha : grid8 a) (hb : grid8 b) : grid8 (min a b) := by
  obtain ⟨i, rfl⟩ := ha
  obtain ⟨j, rfl⟩ := hb
  refine ⟨min i j, ?_⟩
  rw [min_div_div_right (by norm_num : (0:ℚ) ≤ 100000000)]
  norm_cast

theorem grid8_max {a b : ℚ} (ha : grid8 a) (hb : grid8 b) : grid8 (max a b) := by
  obtain ⟨i, rfl⟩ := ha
  obtain ⟨j, rfl⟩ := hb
  refine ⟨max i j, ?_⟩
  rw [max_div_div_right (by norm_num : (0:ℚ) ≤ 100000000)]
  norm_cast

/-- C6 (amended): for an asset in admin-drift mode with
`driftSpeed ∈ (0,1]`, a nonnegative current price and current and target
prices on the engine's 8-decimal rounding grid, each tick's new price lies
between the current price and the target — it moves weakly toward
`driftTarget` and never overshoots it; on the spec's example
(current 100, target 150, speed 0.5) the ticks yield exactly 125 then
137.5, strictly increasing and bounded above by 150.  (The grid hypothesis
is necessary: see the overshoot counterexample.) -/
theorem admin_drift_monotone (b : String → Option ℚ) (c : Coin) (cur tgt s : ℚ)
    (hmode : c.adminControlEnabled = true) (htp : c.targetPrice = some tgt)
    (hcur : c.price = cur) (hs : c.driftSpeed = s)
    (hc8 : grid8 cur) (ht8 : grid8 tgt) (hc0 : 0 ≤ cur) (hs0 : 0 < s) (hs1 : s ≤ 1) :
    (min cur tgt ≤ computeNewPrice b c ∧ computeNewPrice b c ≤ max cur tgt) ∧
    (runTicks (fun _ => noBinance) 500 driftExampleCoin 1).price = 125 ∧
    (runTicks (fun _ => noBinance) 500 driftExampleCoin 2).price = 275/2 ∧
    ((100:ℚ) < 125 ∧ (125:ℚ) < 275/2 ∧ (275/2:ℚ) < 150) := by
  have hspeed : max 0 (jsOr s (3/100)) = s := by
    have hj : jsOr s (3/100) = s := by
      unfold jsOr
      rw [if_neg (ne_of_gt hs0)]
    rw [hj, max_eq_right (le_of_lt hs0)]
  have hstep : computeNewPrice b c =
      (if rnd8 (cur + (tgt - cur) * s) < 0 then max 0 cur else rnd8 (cur + (tgt - cur) * s)) := by
    simp only [computeNewPrice, hmode, htp, hcur, hs, jsOr_zero, hspeed]
  have hxlo : min cur tgt ≤ cur + (tgt - cur) * s := by
    rcases le_total cur tgt with hct | hct
    · rw [min_eq_left hct]
      nlinarith
    · rw [min_eq_right hct]
      nlinarith
  have hxhi : cur + (tgt - cur) * s ≤ max cur tgt := by
    rcases le_total cur tgt with hct | hct
    · rw [max_eq_right hct]
      nlinarith
    · rw [max_eq_left hct]
      nlinarith
  have hrlo : min cur tgt ≤ rnd8 (cur + (tgt - cur) * s) := by
    calc min cur tgt = rnd8 (min cur tgt) := (rnd8_grid (grid8_min hc8 ht8)).symm
    _ ≤ rnd8 (cur + (tgt - cur) * s) := rnd8_mono hxlo
  have hrhi : rnd8 (cur + (tgt - cur) * s) ≤ max cur tgt := by
    calc rnd8 (cur + (tgt - cur) * s) ≤ rnd8 (max cur tgt) := rnd8_mono hxhi
    _ = max cur tgt := rnd8_grid (grid8_max hc8 ht8)
  refine ⟨⟨?_, ?_⟩, ?_, ?_, by norm_num⟩
  · rw [hstep]
    split
    · exact le_trans (min_le_left _ _) (le_max_right _ _)
    · exact hrlo
  · rw [hstep]
    split
    · rw [max_eq_right hc0]
      exact le_max_left _ _
    · exact hrhi
  · norm_num [runTicks, updateCoinOnce, computeNewPrice, driftExampleCoin, noBinance,
      jsOr, rnd8, takeRight]
  · norm_num [runTicks, updateCoinOnce, computeNewPrice, driftExampleCoin, noBinance,
      jsOr, rnd8, takeRight]

/-- Witness for C6 (amended): on the example coin (current 100,
target 150, speed 0.5) the next price stays between 100 and 150. -/
theorem admin_drift_monotone_witness :
    (100:ℚ) ≤ computeNewPrice noBinance driftExampleCoin ∧
    computeNewPrice noBinance driftExampleCoin ≤ 150 := by
  have h := (admin_drift_monotone noBinance driftExampleCoin 100 150 (1/2) rfl rfl rfl rfl
    ⟨10000000000, by norm_num⟩ ⟨15000000000, by norm_num⟩ (by norm_num) (by norm_num)
    (by norm_num)).1
  constructor
  · have h1 := h.1
    rwa [show min (100:ℚ) 150 = 100 by norm_num] at h1
  · have h2 := h.2
    rwa [show max (100:ℚ) 150 = 150 by norm_num] at h2

/-- Counterexample to C6 as stated: with target `5·10⁻⁹` (not on the
8-decimal grid), current price 0 and driftSpeed 1, the rounded tick lands
at `10⁻⁸`, strictly above the target — the drift overshoots. -/
theorem admin_drift_overshoot :
    overshootCoin.price < (1/200000000 : ℚ) ∧
    overshootCoin.targetPrice = some (1/200000000) ∧
    (1/200000000 : ℚ) < computeNewPrice noBinance overshootCoin := by
  norm_num [computeNewPrice, overshootCoin, noBinance, jsOr, rnd8]

theorem takeRight_length (n : Nat) (l : List α) : (takeRight n l).length = min n l.length := by
  simp only [takeRight, List.length_drop]
  omega

theorem takeRight_suffix (n : Nat) (l : List α) : (takeRight n l).IsSuffix l :=
  List.drop_suffix _ _

/-- C7 (amended): with the configured cap `maxChartPoints env` (default
500, floored at 50), a chart history that starts within the cap never
exceeds it after any number of `updatePricesOnce` ticks, and each tick's
history is a suffix of the old history extended by the new point — oldest
points evicted first (FIFO).  `randomizePricesOnce`, however, trims to the
*hardcoded* 500 regardless of the configured cap: one run leaves the
history at `min 500 (len + 1)` points (FIFO suffix of old ++ new point),
which exceeds a configured cap in `[50, 500)` once the history is at that
cap — see the counterexample. -/
theorem chartHistory_bounded (f : Nat → String → Option ℚ) (env : Option Nat) (c : Coin)
    (h0 : c.chartHistory.length ≤ maxChartPoints env) :
    50 ≤ maxChartPoints env ∧ maxChartPoints none = 500 ∧
    (∀ n, (runTicks f (maxChartPoints env) c n).chartHistory.length ≤ maxChartPoints env) ∧
    (∀ n, (runTicks f (maxChartPoints env) c (n+1)).chartHistory.IsSuffix
        ((runTicks f (maxChartPoints env) c n).chartHistory ++
          [⟨(runTicks f (maxChartPoints env) c (n+1)).price, n⟩])) ∧
    (∀ (r : ℚ) (t : Nat) (c2 : Coin),
      (randomizeCoinOnce r t c2).chartHistory.length = min 500 (c2.chartHistory.length + 1) ∧
      (randomizeCoinOnce r t c2).chartHistory.IsSuffix
        (c2.chartHistory ++ [⟨(randomizeCoinOnce r t c2).price, t⟩])) := by
  refine ⟨le_max_left _ _, rfl, ?_, ?_, ?_⟩
  · intro n
    induction n with
    | zero => exact h0
    | succ n _ =>
      show (updateCoinOnce (f n) _ n _).chartHistory.length ≤ _
      simp only [updateCoinOnce]
      rw [takeRight_length]
      exact min_le_left _ _
  · intro n
    show (updateCoinOnce (f n) _ n _).chartHistory.IsSuffix _
    simp only [updateCoinOnce]
    exact takeRight_suffix _ _
  · intro r t c2
    constructor
    · simp only [randomizeCoinOnce]
      rw [takeRight_length]
      simp
    · simp only [randomizeCoinOnce]
      exact takeRight_suffix _ _

/-- Witness for C7: from an empty history with the default cap, three
ticks leave the history within the 500-point cap. -/
theorem chartHistory_bounded_witness :
    (runTicks (fun _ => noBinance) (maxChartPoints none) marketCoinStale 3).chartHistory.length ≤
      maxChartPoints none :=
  (chartHistory_bounded (fun _ => noBinance) none marketCoinStale (by norm_num [marketCoinStale])).2.2.1 3

/-- Counterexample to C7 as stated: with the configured cap
`MAX_CHART_POINTS = 50` and a history already at 50 points, one
`randomizePricesOnce` run (whose `$slice` hardcodes −500) leaves 51
points — the history exceeds the configured cap after an engine run the
claim cites. -/
theorem randomizer_exceeds_cap :
    maxChartPoints (some 50) = 50 ∧
    capCoin.chartHistory.length = 50 ∧
    (randomizeCoinOnce (1/2) 0 capCoin).chartHistory.length = 51 ∧
    maxChartPoints (some 50) < (randomizeCoinOnce (1/2) 0 capCoin).chartHistory.length := by
  have hlen : (randomizeCoinOnce (1/2) 0 capCoin).chartHistory.length = 51 := by
    simp only [randomizeCoinOnce]
    rw [takeRight_length]
    simp [capCoin]
  refine ⟨rfl, by simp [capCoin], hlen, ?_⟩
  rw [hlen]
  norm_num [maxChartPoints]

theorem find?_max_of_pairwise {l : List LedgerEntry} {p : LedgerEntry → Bool} {f : LedgerEntry}
    (hp : l.Pairwise fun a b => b.createdAt ≤ a.createdAt) (hf : l.find? p = some f) :
    ∀ y ∈ l, p y = true → y.createdAt ≤ f.createdAt := by
  induction l with
  | nil => cases hf
  | cons x xs ih =>
    have hpc := List.pairwise_cons.mp hp
    by_cases hx : p x = true
    · rw [List.find?_cons_of_pos _ hx] at hf
      cases hf
      intro y hy _
      rcases List.mem_cons.mp hy with rfl | hy'
      · exact le_refl _
      · exact hpc.1 y hy'
    · rw [List.find?_cons_of_neg _ (by simpa using hx)] at hf
      intro y hy hpy
      rcases List.mem_cons.mp hy with rfl | hy'
      · exact absurd hpy hx
      · exact ih hpc.2 hf y hy' hpy

theorem balanceFor_cons (k : String) (q : String × ℚ) (acc : List (String × ℚ)) :
    balanceFor k (q :: acc) = if q.1 == k then some q.2 else balanceFor k acc := by
  unfold balanceFor
  rw [List.find?_cons]
  cases h : (q.1 == k) <;> simp [h]

theorem balanceFor_append_single (k : String) (acc : List (String × ℚ)) (pr : String × ℚ) :
    balanceFor k (acc ++ [pr]) =
      (match balanceFor k acc with
        | some b => some b
        | none => if pr.1 == k then some pr.2 else none) := by
  induction acc with
  | nil =>
    simp only [List.nil_append, balanceFor_cons]
    cases h : (pr.1 == k) <;> simp [h, balanceFor]
  | cons q acc ih =>
    rw [List.cons_append, balanceFor_cons, balanceFor_cons k q acc]
    by_cases h : (q.1 == k) = true
    · rw [if_pos h, if_pos h]
    · rw [if_neg h, if_neg h, ih]

theorem balanceFor_isSome_iff (k : String) (acc : List (String × ℚ)) :
    (balanceFor k acc).isSome ↔ ∃ p ∈ acc, p.1 = k := by
  simp [balanceFor]

theorem balanceFor_foldl_groupStep (coin : String) :
    ∀ (l : List LedgerEntry) (acc : List (String × ℚ)),
      balanceFor coin (l.foldl groupStep acc) =
        (match balanceFor coin acc with
          | some b => some b
          | none => (l.find? fun e => e.coin == coin).map LedgerEntry.balance) := by
  intro l
  induction l with
  | nil =>
    intro acc
    cases h : balanceFor coin acc <;> simp [h]
  | cons e l ih =>
    intro acc
    rw [List.foldl_cons, ih (groupStep acc e)]
    unfold groupStep
    by_cases hany : (acc.any fun p => p.1 == e.coin) = true
    · rw [if_pos hany]
      by_cases hec : (e.coin == coin) = true
      · have hkey : ∃ p ∈ acc, p.1 = coin := by
          obtain ⟨p, hp, hpk⟩ := List.any_eq_true.mp hany
          exact ⟨p, hp, by rw [eq_of_beq hpk, eq_of_beq hec]⟩
        obtain ⟨b, hb⟩ := Option.isSome_iff_exists.mp ((balanceFor_isSome_iff coin acc).mpr hkey)
        rw [hb]
      · have hecf : (e.coin == coin) = false := by simpa using hec
        simp only [List.find?_cons, hecf]
    · rw [if_neg hany]
      rw [balanceFor_append_single]
      by_cases hec : (e.coin == coin) = true
      · have hnone : balanceFor coin acc = none := by
          by_contra hsome
          obtain ⟨p, hp, hpk⟩ := (balanceFor_isSome_iff coin acc).mp
            (Option.isSome_iff_ne_none.mpr hsome)
          exact hany (List.any_eq_true.mpr ⟨p, hp, by rw [← eq_of_beq hec] at hpk; simp [hpk]⟩)
        simp [hnone, List.find?_cons, hec]
      · have hecf : (e.coin == coin) = false := by simpa using hec
        have hstep : (match balanceFor coin acc with
            | some b => some b
            | none => if ((e.coin, e.balance) : String × ℚ).1 == coin then
                some ((e.coin, e.balance) : String × ℚ).2 else none) = balanceFor coin acc := by
          cases h : balanceFor coin acc <;> simp [h, hecf]
        rw [hstep]
        simp only [List.find?_cons, hecf]

theorem balanceFor_groupFirst (coin : String) (l : List LedgerEntry) :
    balanceFor coin (groupFirstBalances l) =
      (l.find? fun e => e.coin == coin).map LedgerEntry.balance := by
  unfold groupFirstBalances
  rw [balanceFor_foldl_groupStep]
  simp [balanceFor]

/-- C5 (amended): for a valid non-empty account id, any `getAllBalances`
execution reports, per asset code, the `resultingBalance` of an entry with
maximal `createdAt`; when the account's timestamps are distinct per coin
this is the unique most-recent entry, so the reported balance is uniquely
determined (and hence identical across repeated calls with no intervening
writes).  On a timestamp tie, however, no insertion-order tie-break is
applied — see the counterexample. -/
theorem getAllBalances_mostRecent (st : LedgerState) (u coin : String)
    (out : List (String × ℚ)) (e : LedgerEntry)
    (hu : u ≠ "") (hvalid : isValidObjectId u = true)
    (hout : getAllBalances st u out)
    (hdistinct : ∀ a ∈ st.entries, ∀ b ∈ st.entries, a.user = u → b.user = u →
      a.coin = b.coin → a.createdAt = b.createdAt → a = b)
    (he : e ∈ st.entries) (heu : e.user = u) (hec : e.coin = coin)
    (hmax : ∀ x ∈ st.entries, x.user = u → x.coin = coin → x.createdAt ≤ e.createdAt) :
    balanceFor coin out = some e.balance := by
  unfold getAllBalances at hout
  rw [if_neg hu, if_neg (by simp [hvalid])] at hout
  obtain ⟨l, hperm, hsort, rfl⟩ := hout
  have hef : e ∈ st.entries.filter fun x => x.user == u :=
    List.mem_filter.mpr ⟨he, by simp [heu]⟩
  have hel : e ∈ l := hperm.mem_iff.mp hef
  have hsome : (l.find? fun x => x.coin == coin).isSome :=
    List.find?_isSome.mpr ⟨e, hel, by simp [hec]⟩
  obtain ⟨f, hfind⟩ := Option.isSome_iff_exists.mp hsome
  have hfl : f ∈ l := List.mem_of_find?_eq_some hfind
  have hp := List.find?_some hfind
  have hfcoin : f.coin = coin := by simpa using hp
  have hff : f ∈ st.entries.filter fun x => x.user == u := hperm.mem_iff.mpr hfl
  have hfentries : f ∈ st.entries := (List.mem_filter.mp hff).1
  have hfuser : f.user = u := by
    have := (List.mem_filter.mp hff).2
    simpa using this
  have h1 : e.createdAt ≤ f.createdAt :=
    find?_max_of_pairwise hsort hfind e hel (by simp [hec])
  have h2 : f.createdAt ≤ e.createdAt := hmax f hfentries hfuser hfcoin
  have hfe : f = e :=
    hdistinct f hfentries e he hfuser heu (by rw [hfcoin, hec]) (le_antisymm h2 h1)
  rw [balanceFor_groupFirst, hfind, hfe]
  rfl

/-- Witness for C5 (amended): on a two-entry ledger with distinct
timestamps (balances 3 then 9), the admissible execution that returns
`[("BTC", 9)]` indeed reports the most recent entry's balance. -/
theorem getAllBalances_mostRecent_witness :
    balanceFor "BTC" [("BTC", 9)] = some 9 := by
  have hfilter : w5Ledger.entries.filter (fun x => x.user == hexId) = [w5EntryA, w5EntryB] := rfl
  have h := getAllBalances_mostRecent w5Ledger hexId "BTC" [("BTC", 9)] w5EntryB
    (by decide) (by decide)
    (by
      unfold getAllBalances
      rw [if_neg (by decide), if_neg (by decide)]
      refine ⟨[w5EntryB, w5EntryA], ?_, ?_, rfl⟩
      · rw [hfilter]
        exact List.Perm.swap _ _ _
      · simp [sortedByCreatedAtDesc, w5EntryA, w5EntryB])
    (by
      intro a ha b hb hau hbu hcoin hts
      have ha2 : a = w5EntryA ∨ a = w5EntryB := by simpa [w5Ledger] using ha
      have hb2 : b = w5EntryA ∨ b = w5EntryB := by simpa [w5Ledger] using hb
      rcases ha2 with rfl | rfl <;> rcases hb2 with rfl | rfl <;>
        first
        | rfl
        | (exfalso; simp [w5EntryA, w5EntryB] at hts))
    (List.mem_cons_of_mem _ (List.mem_cons_self _ _)) rfl rfl
    (by
      intro x hx _ _
      have hx2 : x = w5EntryA ∨ x = w5EntryB := by simpa [w5Ledger] using hx
      rcases hx2 with rfl | rfl <;> simp [w5EntryA, w5EntryB])
  simpa [w5EntryB] using h

/-- Counterexample to C5 as stated: two rows for the same account and coin
share one `createdAt` (balances 5 then 7, insertion order A then B).  Both
`[("BTC", 5)]` and `[("BTC", 7)]` are admissible results of
`getAllBalances` — the sort applies no insertion-order tie-break — so the
result is not always the highest-sequence entry's balance (7) and
repeated calls need not agree. -/
theorem getAllBalances_tie_ambiguous :
    getAllBalances tieLedger hexId [("BTC", 5)] ∧
    getAllBalances tieLedger hexId [("BTC", 7)] ∧
    tieEntryB.seq = tieEntryA.seq + 1 ∧ tieEntryA.createdAt = tieEntryB.createdAt ∧
    tieEntryB.balance = 7 ∧
    balanceFor "BTC" [("BTC", 5)] = some 5 ∧ (5 : ℚ) ≠ 7 := by
  have hfilter : tieLedger.entries.filter (fun x => x.user == hexId) = [tieEntryA, tieEntryB] := rfl
  refine ⟨?_, ?_, rfl, rfl, rfl, rfl, by norm_num⟩
  · unfold getAllBalances
    rw [if_neg (by decide), if_neg (by decide)]
    refine ⟨[tieEntryA, tieEntryB], ?_, ?_, rfl⟩
    · rw [hfilter]
    · simp [sortedByCreatedAtDesc, tieEntryA, tieEntryB]
  · unfold getAllBalances
    rw [if_neg (by decide), if_neg (by decide)]
    refine ⟨[tieEntryB, tieEntryA], ?_, ?_, rfl⟩
    · rw [hfilter]
      exact List.Perm.swap _ _ _
    · simp [sortedByCreatedAtDesc, tieEntryA, tieEntryB]

theorem simFraction_bounds (now upd tEnd : Nat) :
    15/100 ≤ simFraction now upd tEnd ∧ simFraction now upd tEnd ≤ 3/4 := by
  unfold simFraction
  have he : (0:ℚ) ≤ ((max 0 (now - upd) : Nat) : ℚ) := Nat.cast_nonneg _
  have ht : (0:ℚ) ≤ ((max 1 (tEnd - upd) : Nat) : ℚ) := Nat.cast_nonneg _
  have hs0 : (0:ℚ) ≤ min 1 (((max 0 (now - upd) : Nat) : ℚ) / ((max 1 (tEnd - upd) : Nat) : ℚ)) :=
    le_min (by norm_num) (div_nonneg he ht)
  have hs1 : min 1 (((max 0 (now - upd) : Nat) : ℚ) / ((max 1 (tEnd - upd) : Nat) : ℚ)) ≤ 1 :=
    min_le_left _ _
  constructor <;> nlinarith

theorem simFraction_mono (upd tEnd : Nat) {n1 n2 : Nat} (h : n1 ≤ n2) :
    simFraction n1 upd tEnd ≤ simFraction n2 upd tEnd := by
  unfold simFraction
  have ht : (0:ℚ) < ((max 1 (tEnd - upd) : Nat) : ℚ) := by
    exact_mod_cast Nat.lt_of_lt_of_le Nat.zero_lt_one (le_max_left 1 _)
  have he : ((max 0 (n1 - upd) : Nat) : ℚ) ≤ ((max 0 (n2 - upd) : Nat) : ℚ) := by
    exact_mod_cast (by omega : max 0 (n1 - upd) ≤ max 0 (n2 - upd))
  have hdiv : ((max 0 (n1 - upd) : Nat) : ℚ) / ((max 1 (tEnd - upd) : Nat) : ℚ) ≤
      ((max 0 (n2 - upd) : Nat) : ℚ) / ((max 1 (tEnd - upd) : Nat) : ℚ) :=
    (div_le_div_iff_of_pos_right ht).mpr he
  have hmin := min_le_min (le_refl (1:ℚ)) hdiv
  nlinarith

theorem rnd6_grid {q : ℚ} (h : grid6 q) : rnd6 q = q := by
  obtain ⟨i, rfl⟩ := h
  unfold rnd6
  have h1 : (i : ℚ) / 1000000 * 1000000 + 1/2 = (i : ℚ) + 1/2 := by
    rw [div_mul_cancel₀]
    norm_num
  rw [h1, Int.floor_int_add]
  have h2 : ⌊(1/2 : ℚ)⌋ = 0 := by norm_num
  rw [h2]
  norm_num

/-- C8 (amended): for a custom asset in manual mode with a live countdown,
each run interpolates toward the target with the fraction
`0.15 + stepFraction·0.6`, which grows with elapsed time from the base
0.15 toward 0.75 — not toward 1 — and snaps exactly to the target once the
interpolant is within ε = 0.01 of it, provided the target lies on the
6-decimal grid (otherwise the final `toFixed(6)` re-rounds the snapped
price off the target — see the counterexample); once the timer expires
the mode degrades to pure random-walk (`priceMode = "random"`, target
cleared); and in random-walk mode with no BTC reference the step is a
percentage `pct` with `|pct| ≤ 0.03`, forced nonnegative for a `bull`
direction and nonpositive for `bear` (with a BTC reference the step
`((btc − current)/btc)·rand·0.05` is unbounded in magnitude — see the
counterexample). -/
theorem simulator_spec :
    (∀ now upd tEnd, 15/100 ≤ simFraction now upd tEnd ∧ simFraction now upd tEnd ≤ 3/4) ∧
    (∀ upd tEnd n1 n2, n1 ≤ n2 → simFraction n1 upd tEnd ≤ simFraction n2 upd tEnd) ∧
    (∀ btc r now coin (tp : ℚ) (te : Nat), coin.priceMode = "manual" →
      coin.targetPrice = some tp → coin.priceTimerEnd = some te → now < te → grid6 tp →
      |interpolatePrice (jsOr coin.price 0) tp
          (simFraction now (coin.updatedAt.getD now) te) - tp| < 1/100 →
      (simulateCoinOnce btc r now coin).price = tp) ∧
    (∀ btc r now coin (te : Nat), coin.priceMode = "manual" →
      coin.priceTimerEnd = some te → te ≤ now →
      (simulateCoinOnce btc r now coin).priceMode = "random" ∧
      (simulateCoinOnce btc r now coin).targetPrice = none) ∧
    (∀ r now coin, coin.priceMode = "random" → 0 ≤ r → r ≤ 1 →
      ∃ pct : ℚ, |pct| ≤ 3/100 ∧
        (coin.priceDirection = "bull" → 0 ≤ pct) ∧
        (coin.priceDirection = "bear" → pct ≤ 0) ∧
        (simulateCoinOnce none r now coin).price =
          rnd6 (max (1/100) (jsOr coin.price 0 + jsOr coin.price 0 * pct))) := by
  refine ⟨simFraction_bounds, fun upd tEnd n1 n2 h => simFraction_mono upd tEnd h, ?_, ?_, ?_⟩
  · intro btc r now coin tp te hm htp hte hnow hg hsnap
    simp only [simulateCoinOnce, hm, htp, hte, timerRunning, Option.getD_some,
      Option.isSome_some, decide_eq_true_eq]
    simp only [beq_self_eq_true, Bool.true_and, decide_eq_true hnow, Bool.and_true, if_true]
    rw [if_pos hsnap]
    exact rnd6_grid hg
  · intro btc r now coin te hm hte hexp
    have hnotlt : ¬ (now < te) := not_lt.mpr hexp
    constructor <;>
      simp [simulateCoinOnce, hm, hte, timerRunning, timerExpired, hnotlt, hexp]
  · intro r now coin hm hr0 hr1
    have hmm : ("random" == "manual") = false := by decide
    refine ⟨(if coin.priceDirection = "bull" then |(r - 1/2) * (6/100)|
      else if coin.priceDirection = "bear" then -|(r - 1/2) * (6/100)|
      else (r - 1/2) * (6/100)), ?_, ?_, ?_, ?_⟩
    · have habs : |(r - 1/2) * (6/100)| ≤ 3/100 := by
        rw [abs_mul]
        have h1 : |r - 1/2| ≤ 1/2 := abs_le.mpr ⟨by linarith, by linarith⟩
        have h2 : |(6/100 : ℚ)| = 6/100 := by norm_num
        rw [h2]
        nlinarith [abs_nonneg (r - 1/2)]
      split
      · rwa [abs_abs]
      · split
        · rwa [abs_neg, abs_abs]
        · exact habs
    · intro hb
      rw [if_pos hb]
      exact abs_nonneg _
    · intro hb
      have hb' : coin.priceDirection ≠ "bull" := by
        rw [hb]
        decide
      rw [if_neg hb', if_pos hb]
      simp [abs_nonneg]
    · simp only [simulateCoinOnce, hm, hmm, randomWalkPrice, Bool.false_and, Bool.and_self,
        if_false]
      rfl

/-- Witness for C8 (amended): a manual-mode coin whose countdown has
expired degrades to `random` mode with its target cleared on the next
simulator run. -/
theorem simulator_spec_witness :
    (simulateCoinOnce none 0 2000 manualExpiredCoin).priceMode = "random" ∧
    (simulateCoinOnce none 0 2000 manualExpiredCoin).targetPrice = none :=
  simulator_spec.2.2.2.1 none 0 2000 manualExpiredCoin 1000 rfl rfl (by norm_num)

/-- Counterexample to C8 as stated: (i) the interpolation fraction never
exceeds 0.75 (at 90% of the timer it is 0.69), so it does not grow toward
1; (ii) "snaps exactly to the target" fails for a target off the
6-decimal grid — the snapped price is re-rounded by `toFixed(6)`:
drifting from price 0 toward target `1/3000000` the run lands on 0, not
the target; (iii) with a BTC reference the percentage step is not
bounded — at `btcPrice = 1`, `current = 101`, `rand = 1` the step is
−500% and the price crashes from 101 to the 0.01 floor, far more than
any percentage band. -/
theorem simFraction_capped :
    ((∀ now upd tEnd, simFraction now upd tEnd ≤ 3/4) ∧
      simFraction 900 0 1000 = 69/100 ∧ (3/4 : ℚ) < 1) ∧
    ((simulateCoinOnce none 0 500 offGridCoin).price = 0 ∧
      offGridCoin.targetPrice = some (1/3000000) ∧ (0 : ℚ) ≠ 1/3000000) ∧
    (randomWalkPrice (some 1) 1 101 "neutral" = 1/100 ∧ (1/100 : ℚ) < 101 * (1/2)) := by
  refine ⟨⟨fun now upd tEnd => (simFraction_bounds now upd tEnd).2, ?_, by norm_num⟩,
    ⟨?_, rfl, by norm_num⟩, ?_, by norm_num⟩
  · norm_num [simFraction]
  · norm_num [simulateCoinOnce, offGridCoin, timerRunning, timerExpired, interpolatePrice,
      simFraction, jsOr, jsOrStr, rnd6, abs_lt]
  · have hnb : ("neutral" = "bull") = False := by simp
    have hne : ("neutral" = "bear") = False := by simp
    norm_num [randomWalkPrice, hnb, hne]

theorem getBalance_emptyLedger (u c : String) : getBalance emptyLedger u c = 0 := rfl

/-- C9 (amended): `postLedgerEntry` does not serialize same-key postings —
its balance read and row insert are separate suspension points, and under
the interleaving read-A, read-B, write-A, write-B of two postings with
nonnegative deltas on one `(accountId, assetCode)` pair, both threads read
the same previous balance, both commit, and the final `getBalance` is only
`dB` (the first delta is lost), differing from the serialized outcome
`dA + dB` whenever `dA ≠ 0`. -/
theorem ledger_posting_race (u ty c : String) (dA dB : ℚ) (hA : 0 ≤ dA) (hB : 0 ≤ dB) :
    (runSchedule u ty c dA dB [true, false, true, false]
        (initialTwoPosts emptyLedger)).phaseA = PostPhase.finished ∧
    (runSchedule u ty c dA dB [true, false, true, false]
        (initialTwoPosts emptyLedger)).phaseB = PostPhase.finished ∧
    getBalance (runSchedule u ty c dA dB [true, false, true, false]
        (initialTwoPosts emptyLedger)).st u c = dB ∧
    (dA ≠ 0 → getBalance (runSchedule u ty c dA dB [true, false, true, false]
        (initialTwoPosts emptyLedger)).st u c ≠ dA + dB) := by
  have h0A : ¬ ((0:ℚ) + dA < 0) := by
    rw [zero_add]
    exact not_lt.mpr hA
  have h0B : ¬ ((0:ℚ) + dB < 0) := by
    rw [zero_add]
    exact not_lt.mpr hB
  have hrun : runSchedule u ty c dA dB [true, false, true, false]
      (initialTwoPosts emptyLedger) =
      ⟨.finished, .finished,
        ⟨[⟨0, u, ty, upStr c, dA, dA, 2⟩, ⟨1, u, ty, upStr c, dB, dB, 3⟩]⟩, 4⟩ := by
    have hA' : ¬ (dA < 0) := not_lt.mpr hA
    have hB' : ¬ (dB < 0) := not_lt.mpr hB
    simp [runSchedule, stepThread, initialTwoPosts, postWrite, getBalance_emptyLedger, hA', hB']
    simp [emptyLedger]
  have hbal : getBalance (runSchedule u ty c dA dB [true, false, true, false]
      (initialTwoPosts emptyLedger)).st u c = dB := by
    rw [hrun]
    unfold getBalance entriesFor latestEntry
    simp only [List.filter, beq_self_eq_true, Bool.and_self, List.foldl, pickLatest]
    norm_num
  refine ⟨by rw [hrun], by rw [hrun], hbal, ?_⟩
  intro hdA
  rw [hbal]
  intro hcontra
  exact hdA (by linarith)

/-- Witness for C9 (amended): with deltas 7 and 5, the interleaved run
finishes with balance 5, not the serialized 12. -/
theorem ledger_posting_race_witness :
    getBalance (runSchedule "w" "trade" "eth" 7 5 [true, false, true, false]
      (initialTwoPosts emptyLedger)).st "w" "eth" = 5 ∧
    getBalance (runSchedule "w" "trade" "eth" 7 5 [true, false, true, false]
      (initialTwoPosts emptyLedger)).st "w" "eth" ≠ 7 + 5 := by
  have h := ledger_posting_race "w" "trade" "eth" 7 5 (by norm_num) (by norm_num)
  exact ⟨h.2.2.1, h.2.2.2 (by norm_num)⟩

/-- Counterexample to C9 as stated: two concurrent postings of +100 and
+50 to the same pair of an empty ledger can both read previous balance 0;
the interleaved outcome leaves `getBalance` at 50, not the serialized
150 — the postings are not serialized. -/
theorem ledger_posting_race_counterexample :
    getBalance (runSchedule "u1" "trade" "USDT" 100 50 [true, false, true, false]
      (initialTwoPosts emptyLedger)).st "u1" "USDT" = 50 ∧ (50:ℚ) ≠ 100 + 50 := by
  constructor
  · norm_num [runSchedule, stepThread, initialTwoPosts, postWrite, emptyLedger, getBalance,
      entriesFor, latestEntry, pickLatest, List.filter, List.foldl]
  · norm_num
